import Mathlib

/-!
# Verification of the Yahoo Finance news scraper pipeline

A shallow embedding of `yahoo_finance_news_scraper_v3.py` (the crawl–extract–
summarize pipeline) together with theorems settling the specification claims.

Text is modelled as `List Char` (Python `str` length = number of characters =
`List.length`).  Python regex character classes (`\s`, `\w`), `str.lower`,
`str.strip` are modelled for the ASCII range, which is faithful for every
input exercised here.  Sentence scores (Python floats obtained as
`int / int`) are modelled as exact rationals; identical score expressions
yield identical values in both models.
-/

set_option maxHeartbeats 4000000
set_option maxRecDepth 8000

attribute [local semireducible] Rat.mul Rat.add Rat.inv Rat.sub

abbrev Str := List Char

/-- `l.length < n`, computed without materialising `l.length`
(walks at most `n` cells, constant stack). -/
def pyLenLt (l : List Char) (n : ℕ) : Bool :=
  match l, n with
  | _, 0 => false
  | [], _ + 1 => true
  | _ :: t, n + 1 => pyLenLt t n

theorem pyLenLt_eq (l : List Char) (n : ℕ) : pyLenLt l n = decide (l.length < n) := by
  induction l generalizing n with
  | nil => cases n <;> simp [pyLenLt]
  | cons c t ih =>
    cases n with
    | zero => simp [pyLenLt]
    | succ n => simp [pyLenLt, ih, Nat.succ_lt_succ_iff]

/-- `n < l.length`, computed without materialising `l.length`. -/
def pyLenGt {α : Type} (l : List α) (n : ℕ) : Bool :=
  match l, n with
  | [], _ => false
  | _ :: _, 0 => true
  | _ :: t, n + 1 => pyLenGt t n

theorem pyLenGt_eq {α : Type} (l : List α) (n : ℕ) : pyLenGt l n = decide (n < l.length) := by
  induction l generalizing n with
  | nil => cases n <;> simp [pyLenGt]
  | cons c t ih =>
    cases n with
    | zero => simp [pyLenGt]
    | succ n => simp [pyLenGt, ih, Nat.succ_lt_succ_iff]

/-- Accumulator-based list length (constant stack, for concrete evaluation). -/
def listLenGo {α : Type} (acc : ℕ) : List α → ℕ
  | [] => acc
  | _ :: t => listLenGo (acc + 1) t

def listLen {α : Type} (l : List α) : ℕ := listLenGo 0 l

theorem listLenGo_eq {α : Type} (acc : ℕ) (l : List α) :
    listLenGo acc l = acc + l.length := by
  induction l generalizing acc with
  | nil => simp [listLenGo]
  | cons c t ih => simp [listLenGo, ih]; omega

theorem listLen_eq {α : Type} (l : List α) : listLen l = l.length := by
  simp [listLen, listLenGo_eq]

/-- Coerce a Lean string literal to the character-list model. -/
def str (s : String) : Str := s.data

/-- Python regex `\s` / `str.split()` whitespace, ASCII range. -/
def isPySpace (c : Char) : Bool :=
  c = ' ' || c = '\t' || c = '\n' || c = '\r' || c = '\x0b' || c = '\x0c'

/-- Sentence-terminal punctuation of the split pattern `(?<=[.!?])\s+`. -/
def isTerminal (c : Char) : Bool :=
  c = '.' || c = '!' || c = '?'

/-- Python regex `\w`, ASCII range: alphanumeric or underscore. -/
def isWordChar (c : Char) : Bool :=
  c.isAlphanum || c = '_'

/-- Python `str.lower()`, ASCII range. -/
def lowerStr (s : Str) : Str := s.map Char.toLower

/-- Python `str.strip()`: remove leading and trailing whitespace. -/
def pyStrip (s : Str) : Str :=
  ((s.dropWhile isPySpace).reverse.dropWhile isPySpace).reverse

/-- Maximal runs of characters satisfying `p` (the accumulator holds the
current run reversed).  With `p = isWordChar` this is `re.findall(r"\w+", s)`;
with `p = fun c => !isPySpace c` it is Python's `s.split()`. -/
def tokensGo (p : Char → Bool) (cur : Str) : Str → List Str
  | [] => if cur.isEmpty then [] else [cur.reverse]
  | c :: t =>
    if p c then tokensGo p (c :: cur) t
    else if cur.isEmpty then tokensGo p [] t
    else cur.reverse :: tokensGo p [] t

def tokensBy (p : Char → Bool) (s : Str) : List Str := tokensGo p [] s

/-- `re.findall(r"\w+", text)`. -/
def pyWords (text : Str) : List Str := tokensBy isWordChar text

/-- Python `text.split()`. -/
def pySplitWs (text : Str) : List Str := tokensBy (fun c => !isPySpace c) text

/-- `re.split(r'(?<=[.!?])\s+', text)`: a maximal whitespace run whose
immediately preceding character is sentence-terminal punctuation separates
sentences and is consumed.  `acc` holds the current sentence reversed;
`inSep` records that we are inside a separator run (the sentence before it
has already been emitted). -/
def sentSplitGo (acc : Str) (inSep : Bool) : Str → List Str
  | [] => [acc.reverse]
  | c :: t =>
    if inSep then
      if isPySpace c then sentSplitGo [] true t
      else sentSplitGo [c] false t
    else if isPySpace c && isTerminal (acc.headD ' ') then
      acc.reverse :: sentSplitGo [] true t
    else sentSplitGo (c :: acc) false t

/-- `re.split(r'(?<=[.!?])\s+', text)`. -/
def sentSplit (text : Str) : List Str := sentSplitGo [] false text

/-- The fixed stop-word set of `Summarizer._extractive`. -/
def stopwords : List Str :=
  [str "the", str "and", str "a", str "to", str "of", str "in", str "is",
   str "for", str "on", str "that", str "with", str "as", str "by",
   str "at", str "it", str "from", str "be"]

/-- `[w.lower() for w in re.findall(r"\w+", text)
      if w.lower() not in stopwords and len(w) > 2]`. -/
def filteredWords (text : Str) : List Str :=
  (pyWords text).filterMap fun w =>
    let lw := lowerStr w
    if lw ∉ stopwords ∧ 2 < w.length then some lw else none

/-- `[w.lower() for w in re.findall(r"\w+", s)]` for one sentence. -/
def sentenceWords (s : Str) : List Str := (pyWords s).map lowerStr

/-- `sum(freqs.get(w, 0) for w in sw) / max(len(sw), 1)` where `freqs`
is `Counter(words)`; `freqs.get(w, 0)` is the multiplicity of `w`. -/
def sentenceScore (words : List Str) (s : Str) : ℚ :=
  let sw := sentenceWords s
  ((sw.map fun w => ((words.count w : ℕ) : ℚ)).sum) / (max sw.length 1 : ℚ)

/-- The `scores` list: one `(sentence, score)` pair per sentence, in document
order; a sentence that is empty after stripping gets score `0`. -/
def mkScores (words : List Str) (sentences : List Str) : List (Str × ℚ) :=
  sentences.map fun s =>
    if pyStrip s ≠ [] then (s, sentenceScore words s) else (s, (0 : ℚ))

/-- The ordering realised by Python's stable
`sorted(scores, key=lambda x: x[1], reverse=True)` on index-tagged pairs:
strictly larger score first, equal scores in original index order. -/
def rankLt (a b : ℕ × (Str × ℚ)) : Prop :=
  b.2.2 < a.2.2 ∨ (a.2.2 = b.2.2 ∧ a.1 ≤ b.1)

instance : DecidableRel rankLt := fun a b => by
  unfold rankLt; exact inferInstance

instance : IsTotal (ℕ × (Str × ℚ)) rankLt := by
  constructor
  intro a b
  rcases lt_trichotomy a.2.2 b.2.2 with h | h | h
  · exact Or.inr (Or.inl h)
  · rcases Nat.le_total a.1 b.1 with h' | h'
    · exact Or.inl (Or.inr ⟨h, h'⟩)
    · exact Or.inr (Or.inr ⟨h.symm, h'⟩)
  · exact Or.inl (Or.inl h)

instance : IsTrans (ℕ × (Str × ℚ)) rankLt := by
  constructor
  intro a b c hab hbc
  rcases hab with h1 | ⟨h1, h1'⟩ <;> rcases hbc with h2 | ⟨h2, h2'⟩
  · exact Or.inl (h2.trans h1)
  · exact Or.inl (h2 ▸ h1)
  · exact Or.inl (h1 ▸ h2)
  · exact Or.inr ⟨h1.trans h2, h1'.trans h2'⟩

/-- Python's `sorted(scores, key=lambda x: x[1], reverse=True)`.  `sorted` is
stable, so the result is the unique arrangement ordered by strictly
decreasing score with score ties in original position order — i.e. the
`rankLt`-sort of the index-tagged list, with tags dropped. -/
def pySortedDesc (l : List (Str × ℚ)) : List (Str × ℚ) :=
  ((l.enum).insertionSort rankLt).map (·.2)

/-- Python `list.index`: index of the first occurrence (the list member is
always present where this is used). -/
def pyIndex (l : List (Str × ℚ)) (t : Str × ℚ) : ℕ :=
  match l with
  | [] => 0
  | x :: xs => if x = t then 0 else pyIndex xs t + 1

/-- `Summarizer._extractive(text, max_sents)`. -/
def extractive (text : Str) (max_sents : ℕ) : Str :=
  let sentences := sentSplit text
  if sentences.length ≤ max_sents then pyStrip text
  else
    let words := filteredWords text
    if words = [] then List.intercalate (str " ") (sentences.take max_sents)
    else
      let scores := mkScores words sentences
      let top := (pySortedDesc scores).take max_sents
      let top_idx := top.map fun t => pyIndex scores t
      pyStrip (List.intercalate (str " ")
        (((scores.enum).filter fun p => decide (p.1 ∈ top_idx)).map fun p => p.2.1))

/-- `Summarizer.summarize` when the active method is the extractive one:
the short-input guard followed by `_extractive`. -/
def summarizeExtractive (text : Str) (max_sents : ℕ) : Str :=
  if text = [] ∨ pyLenLt text 50 then (if text = [] then [] else text.take 200)
  else extractive text max_sents

/-- Outcome of one call to the neural backend (`self.pipeline(...)`):
a summary, a falsy (empty) result list, or a raised exception. -/
inductive NeuralOutcome where
  | ok (s : Str)
  | empty
  | raises
deriving DecidableEq

/-- The neural path's pre-truncation:
`words = text.split(); if len(words) > 1000: text = " ".join(words[:1000])`. -/
def truncate1000 (text : Str) : Str :=
  let words := pySplitWs text
  if pyLenGt words 1000 then List.intercalate (str " ") (words.take 1000)
  else text

/-- `Summarizer.summarize` when the method is neural and the pipeline is
loaded.  Note the `except` branch applies `_extractive` to the *reassigned*
(possibly truncated) `text`. -/
def summarizeNeural (backend : Str → NeuralOutcome) (text : Str) (max_sents : ℕ) : Str :=
  if text = [] ∨ pyLenLt text 50 then (if text = [] then [] else text.take 200)
  else
    let t := truncate1000 text
    match backend t with
    | .ok s => s
    | .empty => extractive t max_sents
    | .raises => extractive t max_sents

/-- Streaming string equality (constant stack, for concrete evaluation). -/
def eqStr : Str → Str → Bool
  | [], [] => true
  | [], _ :: _ => false
  | _ :: _, [] => false
  | a :: s, b :: t => if a = b then eqStr s t else false

theorem eqStr_eq (s t : Str) : eqStr s t = decide (s = t) := by
  induction s generalizing t with
  | nil => cases t <;> simp [eqStr]
  | cons a s ih =>
    cases t with
    | nil => simp [eqStr]
    | cons b t => by_cases h : a = b <;> simp [eqStr, h, ih]

/-! ## Link Collector (`get_listing`) -/

/-- Python's substring containment `needle in hay`. -/
def isSubstrOf (needle : Str) : Str → Bool
  | [] => needle.isEmpty
  | c :: t => needle.isPrefixOf (c :: t) || isSubstrOf needle t

/-- Result of fetching one listing page: a raised transport error, or the
`href` attributes of all anchors of the parsed page, in document order. -/
inductive PageResult where
  | err (e : Str)
  | ok (hrefs : List Str)

/-- Scheme of an absolute URL: everything before the first colon. -/
def schemeOf (base : Str) : Str := base.takeWhile (fun c => c ≠ ':')

/-- `scheme://host` of an absolute URL. -/
def originOf (base : Str) : Str :=
  let host := (base.drop ((schemeOf base).length + 3)).takeWhile (fun c => c ≠ '/')
  schemeOf base ++ str "://" ++ host

/-- Host component of an absolute URL. -/
def urlHost (u : Str) : Str :=
  (u.drop ((schemeOf u).length + 3)).takeWhile (fun c => c ≠ '/')

/-- `requests.compat.urljoin(url, href)` for an `href` beginning with `/`
against an absolute `http(s)` base: a network-path reference `//h/p` keeps
only the base's scheme, otherwise the base's origin is prepended. -/
def urljoinSlash (base href : Str) : Str :=
  if (str "//").isPrefixOf href then schemeOf base ++ [':'] ++ href
  else originOf base ++ href

/-- The per-anchor candidate logic of `get_listing`: the news-marker and
exclusion filters, then resolution of relative references; `none` when the
anchor is skipped (`continue`). -/
def candidateOf (url href : Str) : Option Str :=
  if ¬ isSubstrOf (str "/news/") href ∨ isSubstrOf (str "#") href ∨
      isSubstrOf (str "javascript:") href ∨ isSubstrOf (str "subscribe") href then none
  else if (str "/").isPrefixOf href then some (urljoinSlash url href)
  else if (str "http").isPrefixOf href then some href
  else none

/-- The inner anchor loop of one page: returns `(page_links, seen)` after
processing all anchors, where a resolved candidate is accepted when it is
truthy, unseen, and contains the site-domain substring. -/
def processAnchors (url : Str) (seen : List Str) (anchors : List Str) : List Str × List Str :=
  match anchors with
  | [] => ([], seen)
  | href :: rest =>
    match candidateOf url href with
    | none => processAnchors url seen rest
    | some full =>
      if full ≠ [] ∧ full ∉ seen ∧ isSubstrOf (str "finance.yahoo.com") full then
        let r := processAnchors url (full :: seen) rest
        (full :: r.1, r.2)
      else processAnchors url seen rest

/-- `max_attempts = max_pages if max_pages else 100`: Python truthiness makes
an explicit `0` fall back to the 100-page safety ceiling. -/
def maxAttempts : Option ℕ → ℕ
  | some n => if n = 0 then 100 else n
  | none => 100

/-- The pagination loop of `get_listing`: `fuel` is the number of remaining
page attempts (`max_attempts - page`); a transport error or a page with no
new links stops the loop. -/
def listingLoop (url : Str) (web : ℕ → PageResult) :
    ℕ → ℕ → List Str → List Str → List Str
  | 0, _, links, _ => links
  | f + 1, page, links, seen =>
    match web page with
    | .err _ => links
    | .ok hrefs =>
      let r := processAnchors url seen hrefs
      if r.1 = [] then links
      else listingLoop url web f (page + 1) (links ++ r.1) r.2

/-- `get_listing(url, max_pages)`, with the page fetches abstracted as
`web : page index → PageResult`. -/
def get_listing (url : Str) (web : ℕ → PageResult) (max_pages : Option ℕ) : List Str :=
  listingLoop url web (maxAttempts max_pages) 0 [] []

/-- Specification-side: the filter-passing resolved candidates of one page,
in document order, before deduplication. -/
def pageCands (url : Str) : List Str → List Str
  | [] => []
  | href :: rest =>
    match candidateOf url href with
    | none => pageCands url rest
    | some full =>
      if full ≠ [] ∧ isSubstrOf (str "finance.yahoo.com") full then
        full :: pageCands url rest
      else pageCands url rest

/-- Specification-side: keep the first occurrence of each element not already
in `seen`; returns the kept elements and the extended seen-set. -/
def dedupFromP (seen : List Str) : List Str → List Str × List Str
  | [] => ([], seen)
  | x :: t =>
    if x ∉ seen then
      let r := dedupFromP (x :: seen) t
      (x :: r.1, r.2)
    else dedupFromP seen t

/-- Specification-side: the concatenated candidate stream over the pages the
collector actually fetches (same control flow as `listingLoop`, but
accumulating all filter-passing candidates of each fetched page). -/
def rawLoop (url : Str) (web : ℕ → PageResult) : ℕ → ℕ → List Str → List Str
  | 0, _, _ => []
  | f + 1, page, seen =>
    match web page with
    | .err _ => []
    | .ok hrefs =>
      let r := processAnchors url seen hrefs
      if r.1 = [] then []
      else pageCands url hrefs ++ rawLoop url web f (page + 1) r.2

def get_listingRaw (url : Str) (web : ℕ → PageResult) (max_pages : Option ℕ) : List Str :=
  rawLoop url web (maxAttempts max_pages) 0 []

/-- Specification-side: number of page fetches the collector performs
(same control flow as `listingLoop`). -/
def pagesLoop (url : Str) (web : ℕ → PageResult) : ℕ → ℕ → List Str → ℕ
  | 0, _, _ => 0
  | f + 1, page, seen =>
    match web page with
    | .err _ => 1
    | .ok hrefs =>
      let r := processAnchors url seen hrefs
      if r.1 = [] then 1
      else 1 + pagesLoop url web f (page + 1) r.2

def pagesFetched (url : Str) (web : ℕ → PageResult) (max_pages : Option ℕ) : ℕ :=
  pagesLoop url web (maxAttempts max_pages) 0 []

/-- Specification-side: the `(links, seen)` state after the first `n` pages,
ignoring the stopping conditions (used to phrase the termination claim). -/
def collectorState (url : Str) (web : ℕ → PageResult) : ℕ → List Str × List Str
  | 0 => ([], [])
  | n + 1 =>
    let s := collectorState url web n
    match web n with
    | .err _ => s
    | .ok hrefs =>
      let r := processAnchors url s.2 hrefs
      (s.1 ++ r.1, r.2)

/-- Specification-side: the new links contributed by page `n` given the state
reached after pages `0 .. n-1`. -/
def pageNewLinks (url : Str) (web : ℕ → PageResult) (n : ℕ) : List Str :=
  match web n with
  | .err _ => []
  | .ok hrefs => (processAnchors url (collectorState url web n).2 hrefs).1

/-! ## Body Extractor (`extract_body`) -/

/-- A parsed article page, at the level of detail `extract_body` inspects.
Each strategy field is `some ps` when `soup.find(...)` locates the container,
with `ps` the `p.get_text(strip=True)` texts of its paragraphs (after
`script`/`style`/`nav` removal); `allParas` are the stripped texts of every
`p` in the document, for the fallback. -/
structure Soup where
  articleParas : Option (List Str)
  caasParas : Option (List Str)
  mainParas : Option (List Str)
  allParas : List Str
deriving DecidableEq

/-- One container strategy: keep paragraphs longer than 20 characters, join
with a blank line, accept only above 200 characters; otherwise fall through. -/
def containerBody (ps : List Str) : Option Str :=
  if ps ≠ [] then
    let parts := ps.filter (fun t => 20 < t.length)
    if parts ≠ [] ∧ 200 < (List.intercalate (str "\n\n") parts).length then
      some (List.intercalate (str "\n\n") parts)
    else none
  else none

/-- Fallback strategy: all document paragraphs, same length filter, capped at
the first 20 qualifying paragraphs, same 200-character threshold. -/
def fallbackBody (allParas : List Str) : Option Str :=
  let parts := allParas.filter (fun t => 20 < t.length)
  if parts ≠ [] ∧ 200 < (List.intercalate (str "\n\n") (parts.take 20)).length then
    some (List.intercalate (str "\n\n") (parts.take 20))
  else none

/-- `extract_body(soup)`: the three container strategies in priority order,
then the document-wide fallback; `none` models Python's `None`. -/
def extract_body (soup : Soup) : Option Str :=
  (((soup.articleParas.bind containerBody).orElse
      (fun _ => soup.caasParas.bind containerBody)).orElse
    (fun _ => soup.mainParas.bind containerBody)).orElse
    (fun _ => fallbackBody soup.allParas)

/-! ## Article Assembler (`fetch_article`) and Batch Driver (`main` loop) -/

/-- A fetched and parsed article page, at the level of detail `fetch_article`
inspects.  `h1Text` is the stripped text of the first `h1` when present;
`ogTitle` / `metaDesc` are the `content` attributes (defaulted to `""` by
`.get("content", "")`) of the corresponding meta tags when present;
`timeDatetime` is `some attr` when a `time` tag is present, where `attr` is
its optional `datetime` attribute (`.get("datetime")` yields `None` when
missing). -/
structure Page where
  h1Text : Option Str
  ogTitle : Option Str
  metaDesc : Option Str
  timeDatetime : Option (Option Str)
  soup : Soup
deriving DecidableEq

/-- Result of `requests.get` + `raise_for_status` for one article URL. -/
inductive FetchResult where
  | err (e : Str)
  | ok (page : Page)
deriving DecidableEq

/-- One output record of the pipeline (`out` in `fetch_article`). -/
structure ArticleRecord where
  url : Str
  title : Option Str
  description : Option Str
  published : Option Str
  content : Option Str
  summary : Option Str
  scraped_at : Str
  error : Option Str
deriving DecidableEq

/-- `fetch_article(url, summarizer)`: the summarizer is abstracted as a
function `summ`, the clock as `now`, and the network fetch as `fr`.  A raised
transport error is caught and recorded in `error`; on success the title
falls back from the `h1` text to the `og:title` meta when falsy, and
`content`/`summary` are populated only when `extract_body` returns a truthy
body. -/
def fetch_article (summ : Str → Str) (now url : Str) (fr : FetchResult) : ArticleRecord :=
  match fr with
  | .err e =>
    { url := url, title := none, description := none, published := none,
      content := none, summary := none, scraped_at := now, error := some e }
  | .ok pg =>
    let title : Option Str :=
      match pg.h1Text with
      | some t => if t ≠ [] then some t else pg.ogTitle.map pyStrip
      | none => pg.ogTitle.map pyStrip
    let descr : Option Str := pg.metaDesc.map pyStrip
    let published : Option Str := pg.timeDatetime.bind id
    match extract_body pg.soup with
    | some b =>
      if b ≠ [] then
        { url := url, title := title, description := descr, published := published,
          content := some b, summary := some (summ b), scraped_at := now, error := none }
      else
        { url := url, title := title, description := descr, published := published,
          content := none, summary := none, scraped_at := now, error := none }
    | none =>
      { url := url, title := title, description := descr, published := published,
        content := none, summary := none, scraped_at := now, error := none }

/-- The per-topic article loop of `main`: one record per link, in order. -/
def runBatch (summ : Str → Str) (now : Str) (fetchOf : Str → FetchResult)
    (links : List Str) : List ArticleRecord :=
  links.map fun l => fetch_article summ now l (fetchOf l)

/-! ## Shared concrete objects for witnesses and counterexamples -/

def para150 : Str := List.replicate 150 'x'

def para250 : Str := List.replicate 250 'x'

def soup150 : Soup := ⟨some [para150], none, none, [para150]⟩

def soup250 : Soup := ⟨some [para250], none, none, [para250]⟩

def pageOk : Page :=
  ⟨some (str "Fed raises rates"), none, some (str "desc"), some (some (str "2024-01-01")), soup250⟩

/-! ## Claim theorems -/

theorem containerBody_some {ps : List Str} {b : Str} (h : containerBody ps = some b) :
    200 < b.length ∧ b = List.intercalate (str "\n\n") (ps.filter (fun t => 20 < t.length)) := by
  simp only [containerBody] at h
  split_ifs at h with h1 h2
  cases h
  exact ⟨h2.2, rfl⟩

theorem fallbackBody_some {ps : List Str} {b : Str} (h : fallbackBody ps = some b) :
    200 < b.length ∧
      b = List.intercalate (str "\n\n") ((ps.filter (fun t => 20 < t.length)).take 20) := by
  simp only [fallbackBody] at h
  split_ifs at h with h1
  cases h
  exact ⟨h1.2, rfl⟩

theorem orElse_cases {α : Type} {o : Option α} {f : Unit → Option α} {b : α}
    (h : o.orElse f = some b) : o = some b ∨ (o = none ∧ f () = some b) := by
  cases o with
  | none => exact Or.inr ⟨rfl, h⟩
  | some a => exact Or.inl h

theorem extract_body_some {soup : Soup} {b : Str} (h : extract_body soup = some b) :
    (∃ ps, soup.articleParas = some ps ∧ containerBody ps = some b) ∨
    (∃ ps, soup.caasParas = some ps ∧ containerBody ps = some b) ∨
    (∃ ps, soup.mainParas = some ps ∧ containerBody ps = some b) ∨
    fallbackBody soup.allParas = some b := by
  unfold extract_body at h
  rcases orElse_cases h with h | ⟨-, h⟩
  · rcases orElse_cases h with h | ⟨-, h⟩
    · rcases orElse_cases h with h | ⟨-, h⟩
      · cases hA : soup.articleParas with
        | none => rw [hA] at h; simp at h
        | some ps => rw [hA] at h; exact Or.inl ⟨ps, rfl, h⟩
      · cases hC : soup.caasParas with
        | none => rw [hC] at h; simp at h
        | some ps => rw [hC] at h; exact Or.inr (Or.inl ⟨ps, rfl, h⟩)
    · cases hM : soup.mainParas with
      | none => rw [hM] at h; simp at h
      | some ps => rw [hM] at h; exact Or.inr (Or.inr (Or.inl ⟨ps, rfl, h⟩))
  · exact Or.inr (Or.inr (Or.inr h))

/-- C9: the Body Extractor accepts a candidate body only when the
blank-line-joined retained paragraphs (each retained paragraph's trimmed
text longer than 20 characters) exceed 200 characters in total; a filtered
paragraph total of 150 characters is rejected (absent result), a total of
250 characters is accepted. -/
theorem C9_extraction_threshold :
    (∀ (soup : Soup) (b : Str), extract_body soup = some b →
      200 < b.length ∧
        ((∃ ps, soup.articleParas = some ps ∧
            b = List.intercalate (str "\n\n") (ps.filter (fun t => 20 < t.length))) ∨
         (∃ ps, soup.caasParas = some ps ∧
            b = List.intercalate (str "\n\n") (ps.filter (fun t => 20 < t.length))) ∨
         (∃ ps, soup.mainParas = some ps ∧
            b = List.intercalate (str "\n\n") (ps.filter (fun t => 20 < t.length))) ∨
         b = List.intercalate (str "\n\n")
              ((soup.allParas.filter (fun t => 20 < t.length)).take 20))) ∧
    extract_body soup150 = none ∧ extract_body soup250 = some para250 := by
  refine ⟨?_, by decide, by decide⟩
  intro soup b h
  rcases extract_body_some h with ⟨ps, hps, hcb⟩ | ⟨ps, hps, hcb⟩ | ⟨ps, hps, hcb⟩ | hfb
  · rcases containerBody_some hcb with ⟨hl, he⟩
    exact ⟨hl, Or.inl ⟨ps, hps, he⟩⟩
  · rcases containerBody_some hcb with ⟨hl, he⟩
    exact ⟨hl, Or.inr (Or.inl ⟨ps, hps, he⟩)⟩
  · rcases containerBody_some hcb with ⟨hl, he⟩
    exact ⟨hl, Or.inr (Or.inr (Or.inl ⟨ps, hps, he⟩))⟩
  · rcases fallbackBody_some hfb with ⟨hl, he⟩
    exact ⟨hl, Or.inr (Or.inr (Or.inr he))⟩

theorem C9_witness : 200 < para250.length :=
  (C9_extraction_threshold.1 soup250 para250 C9_extraction_threshold.2.2).1

/-- C4: every record the Article Assembler produces satisfies the record
invariant: `summary` is never present without `content`, and `content` and
`error` are never both present. -/
theorem C4_record_invariant (summ : Str → Str) (now url : Str) (fr : FetchResult) :
    ((fetch_article summ now url fr).summary.isSome →
      (fetch_article summ now url fr).content.isSome) ∧
    ¬((fetch_article summ now url fr).content.isSome ∧
      (fetch_article summ now url fr).error.isSome) := by
  cases fr with
  | err e => simp [fetch_article]
  | ok pg =>
    cases h : extract_body pg.soup with
    | none => simp [fetch_article, h]
    | some b => by_cases hb : b = [] <;> simp [fetch_article, h, hb]

theorem C4_witness : (fetch_article id (str "t0") (str "u") (.ok pageOk)).content.isSome :=
  (C4_record_invariant id (str "t0") (str "u") (.ok pageOk)).1 (by decide)

/-- C1: the Article Assembler captures a raised fetch into the record's
`error` field with every content-derived field unset, and the batch driver
continues: a batch of three URLs whose second fetch raises yields exactly
three records, only the second carrying `error`, the first and third fully
populated. -/
theorem C1_error_isolation :
    (∀ (summ : Str → Str) (now url e : Str),
      fetch_article summ now url (.err e) =
        { url := url, title := none, description := none, published := none,
          content := none, summary := none, scraped_at := now, error := some e }) ∧
    (∀ (summ : Str → Str) (now u1 u2 u3 e : Str) (fetchOf : Str → FetchResult)
        (pg1 pg3 : Page) (b1 b3 : Str),
      fetchOf u1 = .ok pg1 → fetchOf u2 = .err e → fetchOf u3 = .ok pg3 →
      extract_body pg1.soup = some b1 → b1 ≠ [] →
      extract_body pg3.soup = some b3 → b3 ≠ [] →
      (runBatch summ now fetchOf [u1, u2, u3]).length = 3 ∧
      (runBatch summ now fetchOf [u1, u2, u3]).get? 1 =
        some { url := u2, title := none, description := none, published := none,
               content := none, summary := none, scraped_at := now, error := some e } ∧
      ((runBatch summ now fetchOf [u1, u2, u3]).get? 0).map (fun r => r.error) =
        some none ∧
      ((runBatch summ now fetchOf [u1, u2, u3]).get? 0).map (fun r => r.content) =
        some (some b1) ∧
      ((runBatch summ now fetchOf [u1, u2, u3]).get? 0).map (fun r => r.summary) =
        some (some (summ b1)) ∧
      ((runBatch summ now fetchOf [u1, u2, u3]).get? 2).map (fun r => r.error) =
        some none ∧
      ((runBatch summ now fetchOf [u1, u2, u3]).get? 2).map (fun r => r.content) =
        some (some b3) ∧
      ((runBatch summ now fetchOf [u1, u2, u3]).get? 2).map (fun r => r.summary) =
        some (some (summ b3))) := by
  constructor
  · intro summ now url e
    rfl
  · intro summ now u1 u2 u3 e fetchOf pg1 pg3 b1 b3 h1 h2 h3 hx1 hb1 hx3 hb3
    simp only [runBatch, List.map, h1, h2, h3]
    refine ⟨rfl, rfl, ?_, ?_, ?_, ?_, ?_, ?_⟩ <;>
      simp [fetch_article, hx1, hb1, hx3, hb3]

def cexFetch : Str → FetchResult :=
  fun u => if u = str "u2" then .err (str "timeout") else .ok pageOk

theorem C1_witness :
    (runBatch id (str "t") cexFetch [str "u1", str "u2", str "u3"]).get? 1 =
      some { url := str "u2", title := none, description := none, published := none,
             content := none, summary := none, scraped_at := str "t",
             error := some (str "timeout") } :=
  (C1_error_isolation.2 id (str "t") (str "u1") (str "u2") (str "u3") (str "timeout")
    cexFetch pageOk pageOk para250 para250 (by decide) (by decide) (by decide)
    (by decide) (by decide) (by decide) (by decide)).2.1

/-- C7 (amended): for a text with at most 3 sentences, the extractive
summarizer returns the text itself when it is shorter than 50 characters,
and the text *stripped of leading/trailing whitespace* otherwise. -/
theorem C7_short_circuit (text : Str) (h : (sentSplit text).length ≤ 3) :
    summarizeExtractive text 3 = if text.length < 50 then text else pyStrip text := by
  unfold summarizeExtractive
  by_cases h0 : text = []
  · subst h0
    simp
  · rw [pyLenLt_eq]
    by_cases h50 : text.length < 50
    · rw [if_pos (Or.inr (by simp [h50])), if_neg h0, if_pos h50]
      exact List.take_of_length_le (by omega)
    · rw [if_neg (by simp [h0, h50]), if_neg h50]
      unfold extractive
      rw [if_pos h]

def cexC7 : Str := List.replicate 60 'a' ++ [' ']

/-- C7 counterexample: a one-sentence, 61-character text ending in a space is
*not* returned verbatim — the code returns `text.strip()`. -/
theorem C7_counterexample :
    (sentSplit cexC7).length ≤ 3 ∧ summarizeExtractive cexC7 3 ≠ cexC7 := by decide

def cexC7w : Str :=
  str "The market rallied strongly today. Tech stocks led all the gains."

theorem C7_witness :
    summarizeExtractive cexC7w 3 = pyStrip cexC7w := by
  rw [C7_short_circuit cexC7w (by decide)]
  decide

/-- C10: when the word-frequency table is empty (every token is a stop-word
or shorter than 3 characters), the extractive summarizer skips scoring and
returns the first 3 sentences joined by single spaces. -/
theorem C10_empty_freq_table (text : Str) (h50 : 50 ≤ text.length)
    (hs : 3 < (sentSplit text).length)
    (hw : ∀ w ∈ pyWords text, lowerStr w ∈ stopwords ∨ w.length ≤ 2) :
    extractive text 3 = List.intercalate (str " ") ((sentSplit text).take 3) := by
  have hfw : filteredWords text = [] := by
    refine List.filterMap_eq_nil.mpr ?_
    intro w hwmem
    rcases hw w hwmem with h | h
    · simp [h]
    · have h2 : ¬ 2 < w.length := by omega
      simp [h2]
  have h1 : ¬ (sentSplit text).length ≤ 3 := by omega
  simp [extractive, h1, hfw]

def cexC10 : Str := str "It is to be. It is to be. It is to be. It is to be. It is to be."

theorem C10_witness :
    extractive cexC10 3 = List.intercalate (str " ") ((sentSplit cexC10).take 3) :=
  C10_empty_freq_table cexC10 (by decide) (by decide) (by decide)

/-- C2 (amended): when the neural backend raises during a call, the summary
equals the extractive result on the input *after the neural path's 1000-word
truncation*; the truncation is the identity whenever the input has at most
1000 words. -/
theorem C2_neural_fallback (backend : Str → NeuralOutcome) (text : Str) (n : ℕ)
    (h50 : 50 ≤ text.length) (hb : backend (truncate1000 text) = .raises) :
    summarizeNeural backend text n = extractive (truncate1000 text) n ∧
    ((pySplitWs text).length ≤ 1000 → truncate1000 text = text) := by
  constructor
  · have h0 : text ≠ [] := by
      intro h
      rw [h] at h50
      simp at h50
    unfold summarizeNeural
    rw [pyLenLt_eq, if_neg (by simp [h0]; omega)]
    simp only [hb]
  · intro hlen
    have hn : ¬ 1000 < (pySplitWs text).length := by omega
    simp [truncate1000, pyLenGt_eq, hn]

def cexC2 : Str := List.intercalate (str " ") (List.replicate 1000 (str "a")) ++ str " b."

/-- C2 counterexample: on a 1001-word input the neural `except` branch
applies the extractive strategy to the *truncated* text, which differs from
the extractive summary of the original input. -/
theorem C2_counterexample :
    summarizeNeural (fun _ => .raises) cexC2 3 ≠ extractive cexC2 3 := by
  have h : eqStr (summarizeNeural (fun _ => .raises) cexC2 3) (extractive cexC2 3) = false := by
    decide
  intro hEq
  rw [eqStr_eq, hEq] at h
  simp at h

def cexC2w : Str := str "Stocks analysts expect earnings growth across banking sectors."

theorem C2_witness :
    summarizeNeural (fun _ => .raises) cexC2w 3 = extractive (truncate1000 cexC2w) 3 ∧
    truncate1000 cexC2w = cexC2w := by
  have h := C2_neural_fallback (fun _ => .raises) cexC2w 3 (by decide) (by decide)
  exact ⟨h.1, h.2 (by decide)⟩

/-! ## Collector lemmas -/

theorem dedupFromP_cons_mem {x : Str} {seen : List Str} (t : List Str) (h : x ∈ seen) :
    dedupFromP seen (x :: t) = dedupFromP seen t := by
  simp [dedupFromP, h]

theorem dedupFromP_cons_not_mem {x : Str} {seen : List Str} (t : List Str) (h : x ∉ seen) :
    dedupFromP seen (x :: t) =
      (x :: (dedupFromP (x :: seen) t).1, (dedupFromP (x :: seen) t).2) := by
  simp [dedupFromP, h]

theorem processAnchors_eq (url : Str) (anchors : List Str) :
    ∀ seen, processAnchors url seen anchors = dedupFromP seen (pageCands url anchors) := by
  induction anchors with
  | nil => intro seen; rfl
  | cons href rest ih =>
    intro seen
    cases hc : candidateOf url href with
    | none =>
      simp only [processAnchors, pageCands, hc]
      exact ih seen
    | some full =>
      simp only [processAnchors, pageCands, hc]
      by_cases hP : full ≠ [] ∧ isSubstrOf (str "finance.yahoo.com") full = true
      · rw [if_pos hP]
        by_cases hSeen : full ∈ seen
        · rw [if_neg (fun hcon => hcon.2.1 hSeen), dedupFromP_cons_mem _ hSeen]
          exact ih seen
        · rw [if_pos ⟨hP.1, hSeen, hP.2⟩, dedupFromP_cons_not_mem _ hSeen]
          rw [ih (full :: seen)]
      · rw [if_neg hP, if_neg (by tauto)]
        exact ih seen

theorem dedupFromP_append (a : List Str) :
    ∀ seen b, dedupFromP seen (a ++ b) =
      ((dedupFromP seen a).1 ++ (dedupFromP (dedupFromP seen a).2 b).1,
        (dedupFromP (dedupFromP seen a).2 b).2) := by
  induction a with
  | nil => intro seen b; rfl
  | cons x t ih =>
    intro seen b
    by_cases hx : x ∈ seen
    · rw [List.cons_append, dedupFromP_cons_mem _ hx, dedupFromP_cons_mem _ hx, ih]
    · rw [List.cons_append, dedupFromP_cons_not_mem _ hx, dedupFromP_cons_not_mem _ hx,
        ih (x :: seen) b]
      rfl

theorem listingLoop_eq_raw (url : Str) (web : ℕ → PageResult) :
    ∀ (fuel page : ℕ) (links seen : List Str),
      listingLoop url web fuel page links seen =
        links ++ (dedupFromP seen (rawLoop url web fuel page seen)).1 := by
  intro fuel
  induction fuel with
  | zero => intro page links seen; simp [listingLoop, rawLoop, dedupFromP]
  | succ f ih =>
    intro page links seen
    unfold listingLoop rawLoop
    cases hw : web page with
    | err e => simp [dedupFromP]
    | ok hrefs =>
      dsimp only
      by_cases hempty : (processAnchors url seen hrefs).1 = []
      · rw [if_pos hempty, if_pos hempty]
        simp [dedupFromP]
      · rw [if_neg hempty, if_neg hempty, ih (page + 1), dedupFromP_append,
          processAnchors_eq url hrefs seen, List.append_assoc]

theorem dedupFromP_nodup (l : List Str) :
    ∀ seen, (dedupFromP seen l).1.Nodup ∧ ∀ x ∈ (dedupFromP seen l).1, x ∉ seen := by
  induction l with
  | nil => intro seen; simp [dedupFromP]
  | cons x t ih =>
    intro seen
    by_cases hx : x ∈ seen
    · rw [dedupFromP_cons_mem _ hx]
      exact ih seen
    · rw [dedupFromP_cons_not_mem _ hx]
      dsimp only
      constructor
      · rw [List.nodup_cons]
        exact ⟨fun hmem => (ih (x :: seen)).2 x hmem (List.mem_cons_self x seen),
          (ih (x :: seen)).1⟩
      · intro y hy
        rcases List.mem_cons.mp hy with rfl | hy
        · exact hx
        · intro hseen
          exact (ih (x :: seen)).2 y hy (List.mem_cons_of_mem x hseen)

theorem dedupFromP_subset (l : List Str) :
    ∀ seen x, x ∈ (dedupFromP seen l).1 → x ∈ l := by
  induction l with
  | nil => intro seen x h; simp [dedupFromP] at h
  | cons y t ih =>
    intro seen x h
    by_cases hy : y ∈ seen
    · rw [dedupFromP_cons_mem _ hy] at h
      exact List.mem_cons_of_mem y (ih seen x h)
    · rw [dedupFromP_cons_not_mem _ hy] at h
      dsimp only at h
      rcases List.mem_cons.mp h with rfl | h
      · exact List.mem_cons_self x t
      · exact List.mem_cons_of_mem y (ih (y :: seen) x h)

/-- C5: a link appearing on several listing pages occurs exactly once in the
collector's output, at the position of its first occurrence: the output is
exactly the first-occurrence deduplication of the stream of filter-passing
resolved candidates over the fetched pages, and in particular has no
duplicates. -/
theorem C5_dedup_first_occurrence (url : Str) (web : ℕ → PageResult) (mp : Option ℕ) :
    get_listing url web mp = (dedupFromP [] (get_listingRaw url web mp)).1 ∧
    (get_listing url web mp).Nodup := by
  have h : get_listing url web mp = (dedupFromP [] (get_listingRaw url web mp)).1 := by
    unfold get_listing get_listingRaw
    rw [listingLoop_eq_raw]
    rfl
  exact ⟨h, h ▸ (dedupFromP_nodup _ []).1⟩

theorem pageCands_mem (url : Str) (anchors : List Str) :
    ∀ x ∈ pageCands url anchors, isSubstrOf (str "finance.yahoo.com") x = true := by
  induction anchors with
  | nil => intro x h; simp [pageCands] at h
  | cons href rest ih =>
    intro x h
    cases hc : candidateOf url href with
    | none =>
      simp only [pageCands, hc] at h
      exact ih x h
    | some full =>
      simp only [pageCands, hc] at h
      by_cases hP : full ≠ [] ∧ isSubstrOf (str "finance.yahoo.com") full = true
      · rw [if_pos hP] at h
        rcases List.mem_cons.mp h with rfl | h
        · exact hP.2
        · exact ih x h
      · rw [if_neg hP] at h
        exact ih x h

theorem rawLoop_mem (url : Str) (web : ℕ → PageResult) :
    ∀ (fuel page : ℕ) (seen : List Str) (x : Str), x ∈ rawLoop url web fuel page seen →
      isSubstrOf (str "finance.yahoo.com") x = true := by
  intro fuel
  induction fuel with
  | zero => intro page seen x h; simp [rawLoop] at h
  | succ f ih =>
    intro page seen x h
    unfold rawLoop at h
    cases hw : web page with
    | err e => rw [hw] at h; simp at h
    | ok hrefs =>
      rw [hw] at h
      dsimp only at h
      by_cases hempty : (processAnchors url seen hrefs).1 = []
      · rw [if_pos hempty] at h
        simp at h
      · rw [if_neg hempty] at h
        rcases List.mem_append.mp h with h | h
        · exact pageCands_mem url hrefs x h
        · exact ih (page + 1) _ x h

/-- C8 (amended): every URL in the collector's output contains the substring
`finance.yahoo.com` — the code performs a substring containment test, not a
host comparison. -/
theorem C8_domain_substring (url : Str) (web : ℕ → PageResult) (mp : Option ℕ)
    (x : Str) (hx : x ∈ get_listing url web mp) :
    isSubstrOf (str "finance.yahoo.com") x = true := by
  rw [(C5_dedup_first_occurrence url web mp).1] at hx
  exact rawLoop_mem url web _ _ _ x (dedupFromP_subset _ [] x hx)

def cexBase : Str := str "https://finance.yahoo.com/topic/latest-news/"

def cexEvil : Str := str "https://evil.com/news/finance.yahoo.com.html"

def webC8 : ℕ → PageResult := fun p => if p = 0 then .ok [cexEvil] else .ok []

/-- C8 counterexample: an absolute link on a different host is accepted
because the code only tests substring containment of `finance.yahoo.com`,
which here occurs in the path, not the host. -/
theorem C8_counterexample :
    cexEvil ∈ get_listing cexBase webC8 none ∧ urlHost cexEvil ≠ str "finance.yahoo.com" := by
  decide

theorem C8_witness : isSubstrOf (str "finance.yahoo.com") cexEvil = true :=
  C8_domain_substring cexBase webC8 none cexEvil (by decide)

/-! ## C6: termination and the page cap -/

theorem pagesLoop_le_fuel (url : Str) (web : ℕ → PageResult) :
    ∀ (fuel page : ℕ) (seen : List Str), pagesLoop url web fuel page seen ≤ fuel := by
  intro fuel
  induction fuel with
  | zero => intro page seen; simp [pagesLoop]
  | succ f ih =>
    intro page seen
    unfold pagesLoop
    cases web page with
    | err e => dsimp only; omega
    | ok hrefs =>
      dsimp only
      by_cases hempty : (processAnchors url seen hrefs).1 = []
      · rw [if_pos hempty]
        omega
      · rw [if_neg hempty]
        have := ih (page + 1) (processAnchors url seen hrefs).2
        omega

theorem collectorState_succ (url : Str) (web : ℕ → PageResult) (k : ℕ) :
    collectorState url web (k + 1) =
      match web k with
      | .err _ => collectorState url web k
      | .ok hrefs =>
        ((collectorState url web k).1 ++ (processAnchors url (collectorState url web k).2 hrefs).1,
          (processAnchors url (collectorState url web k).2 hrefs).2) := rfl

theorem listingLoop_stops (url : Str) (web : ℕ → PageResult) (M n : ℕ) (hM : n < M)
    (hpages : ∀ k, k < n → pageNewLinks url web k ≠ [])
    (hok : ∃ hrefs, web n = .ok hrefs) (hempty : pageNewLinks url web n = []) :
    ∀ d k, k + d = n →
      listingLoop url web (M - k) k (collectorState url web k).1 (collectorState url web k).2 =
        (collectorState url web n).1 := by
  intro d
  induction d with
  | zero =>
    intro k hk
    have hkn : k = n := by omega
    subst hkn
    obtain ⟨f, hf⟩ : ∃ f, M - k = f + 1 := ⟨M - k - 1, by omega⟩
    rw [hf]
    rcases hok with ⟨hrefs, hw⟩
    unfold listingLoop
    rw [hw]
    dsimp only
    rw [if_pos]
    unfold pageNewLinks at hempty
    rw [hw] at hempty
    exact hempty
  | succ d ih =>
    intro k hk
    have hkn : k < n := by omega
    have hnew := hpages k hkn
    unfold pageNewLinks at hnew
    cases hw : web k with
    | err e => rw [hw] at hnew; exact absurd rfl hnew
    | ok hrefs =>
      rw [hw] at hnew
      obtain hf : M - k = (M - (k + 1)) + 1 := by omega
      rw [hf]
      unfold listingLoop
      rw [hw]
      dsimp only
      rw [if_neg hnew]
      have hstate : collectorState url web (k + 1) =
          ((collectorState url web k).1 ++ (processAnchors url (collectorState url web k).2 hrefs).1,
            (processAnchors url (collectorState url web k).2 hrefs).2) := by
        rw [collectorState_succ, hw]
      have hih := ih (k + 1) (by omega)
      rw [hstate] at hih
      exact hih

/-- C6 (amended): link collection always terminates; the loop performs at
most the configured page cap when that cap is positive, and at most the
100-page safety ceiling when the cap is absent or zero (Python truthiness
treats an explicit `0` as unset); if page `n` is the first page yielding
zero new links, collection stops there and returns exactly the links
gathered from pages `0 .. n-1`. -/
theorem C6_termination :
    (∀ (url : Str) (web : ℕ → PageResult) (n : ℕ), 0 < n →
      pagesFetched url web (some n) ≤ n) ∧
    (∀ (url : Str) (web : ℕ → PageResult),
      pagesFetched url web none ≤ 100 ∧ pagesFetched url web (some 0) ≤ 100) ∧
    (∀ (url : Str) (web : ℕ → PageResult) (mp : Option ℕ) (n : ℕ),
      n < maxAttempts mp →
      (∀ k, k < n → pageNewLinks url web k ≠ []) →
      (∃ hrefs, web n = .ok hrefs) → pageNewLinks url web n = [] →
      get_listing url web mp = (collectorState url web n).1) := by
  refine ⟨?_, ?_, ?_⟩
  · intro url web n hn
    unfold pagesFetched
    have h : maxAttempts (some n) = n := by
      simp only [maxAttempts]
      rw [if_neg (by omega)]
    rw [h]
    exact pagesLoop_le_fuel url web n 0 []
  · intro url web
    exact ⟨pagesLoop_le_fuel url web 100 0 [], pagesLoop_le_fuel url web 100 0 []⟩
  · intro url web mp n hM hpages hok hempty
    have h := listingLoop_stops url web (maxAttempts mp) n hM hpages hok hempty n 0 (by omega)
    unfold get_listing
    rw [Nat.sub_zero] at h
    exact h

def webC6 : ℕ → PageResult := fun _ => .ok [str "/news/a"]

/-- C6 counterexample: with an explicit page cap of `0`, Python truthiness
falls back to the 100-page ceiling, so the loop still fetches pages —
it does not perform at most the configured cap. -/
theorem C6_counterexample : ¬ (pagesFetched cexBase webC6 (some 0) ≤ 0) := by decide

theorem C6_witness :
    get_listing cexBase webC6 none = (collectorState cexBase webC6 1).1 :=
  C6_termination.2.2 cexBase webC6 none 1 (by decide)
    (by decide) ⟨[str "/news/a"], rfl⟩ (by decide)

/-! ## C3: top-3 selection of the extractive summarizer -/

theorem pyIndex_get? (l : List (Str × ℚ)) (t : Str × ℚ) (h : t ∈ l) :
    l.get? (pyIndex l t) = some t := by
  induction l with
  | nil => cases h
  | cons x xs ih =>
    unfold pyIndex
    by_cases hx : x = t
    · rw [if_pos hx]
      simp [hx]
    · rw [if_neg hx]
      rcases List.mem_cons.mp h with rfl | h
      · exact absurd rfl hx
      · simp only [List.get?_cons_succ]
        exact ih h

theorem pyIndex_le (l : List (Str × ℚ)) (i : ℕ) (t : Str × ℚ)
    (h : l.get? i = some t) : pyIndex l t ≤ i := by
  induction l generalizing i with
  | nil => simp at h
  | cons x xs ih =>
    unfold pyIndex
    by_cases hx : x = t
    · rw [if_pos hx]
      omega
    · rw [if_neg hx]
      cases i with
      | zero =>
        simp at h
        exact absurd h hx
      | succ i =>
        simp only [List.get?_cons_succ] at h
        have := ih i h
        omega

/-- Stability of the modelled sort: when the three top-ranked
`(sentence, score)` pairs are pairwise distinct, `scores.index` recovers the
original position of each of them. -/
theorem pyIndex_eq_idx (scores : List (Str × ℚ))
    (hd : (((scores.enum).insertionSort rankLt).take 3).Pairwise (fun a b => a.2 ≠ b.2)) :
    ∀ q ∈ ((scores.enum).insertionSort rankLt).take 3, pyIndex scores q.2 = q.1 := by
  intro q hq
  obtain ⟨i, t⟩ := q
  set T := (scores.enum).insertionSort rankLt with hT
  have hperm : T.Perm scores.enum := List.perm_insertionSort rankLt (scores.enum)
  have hsorted : List.Sorted rankLt T := List.sorted_insertionSort rankLt (scores.enum)
  have hqT : ((i, t) : ℕ × (Str × ℚ)) ∈ T := List.Sublist.mem hq (List.take_sublist 3 T)
  have hqE : ((i, t) : ℕ × (Str × ℚ)) ∈ scores.enum := hperm.mem_iff.mp hqT
  have hget : scores.get? i = some t := List.mem_enum_iff_get?.mp hqE
  have htmem : t ∈ scores := List.get?_mem hget
  show pyIndex scores t = i
  set j := pyIndex scores t with hj
  have hjget : scores.get? j = some t := pyIndex_get? scores t htmem
  have hjle : j ≤ i := pyIndex_le scores i t hget
  by_cases hij : j = i
  · exact hij
  have hjlt : j < i := lt_of_le_of_ne hjle hij
  have hjE : ((j, t) : ℕ × (Str × ℚ)) ∈ scores.enum := List.mem_enum_iff_get?.mpr hjget
  have hjT : ((j, t) : ℕ × (Str × ℚ)) ∈ T := hperm.mem_iff.mpr hjE
  obtain ⟨k3, hk3⟩ := List.mem_iff_get.mp hq
  obtain ⟨m, hm⟩ := List.mem_iff_get.mp hjT
  have hk3lt : (k3 : ℕ) < 3 := by
    have h : (k3 : ℕ) < min 3 T.length := by simpa [List.length_take] using k3.isLt
    omega
  have hk3T : (k3 : ℕ) < T.length := by
    have h : (k3 : ℕ) < min 3 T.length := by simpa [List.length_take] using k3.isLt
    omega
  have hgetk : T.get ⟨k3, hk3T⟩ = (i, t) := by
    rw [List.get_take T hk3T hk3lt]
    rw [show (⟨(k3 : ℕ), by simpa [List.length_take] using lt_min hk3lt hk3T⟩ :
          Fin (T.take 3).length) = k3 from Fin.ext rfl]
    exact hk3
  rcases lt_trichotomy (m : ℕ) (k3 : ℕ) with hlt | heq | hgt
  · have hmlt3 : (m : ℕ) < (T.take 3).length := by
      rw [List.length_take]
      have h := m.isLt
      omega
    have hmtake : (T.take 3).get ⟨m, hmlt3⟩ = (j, t) := by
      rw [show (⟨(m : ℕ), hmlt3⟩ : Fin (T.take 3).length) =
            ⟨(m : ℕ), by simpa [List.length_take] using lt_min (by omega : (m:ℕ) < 3) m.isLt⟩
          from Fin.ext rfl]
      rw [← List.get_take T m.isLt (by omega : (m : ℕ) < 3)]
      rw [show (⟨(m : ℕ), m.isLt⟩ : Fin T.length) = m from Fin.ext rfl]
      exact hm
    have hpw := List.pairwise_iff_get.mp hd ⟨m, hmlt3⟩ k3 hlt
    rw [hmtake, hk3] at hpw
    exact absurd rfl hpw
  · have hmk : m = ⟨(k3 : ℕ), hk3T⟩ := Fin.ext heq
    rw [hmk, hgetk] at hm
    exact absurd (congrArg Prod.fst hm).symm hij
  · have hpw := List.pairwise_iff_get.mp hsorted ⟨k3, hk3T⟩ m hgt
    rw [hgetk, hm] at hpw
    rcases hpw with h | ⟨-, h⟩
    · exact absurd h (lt_irrefl _)
    · omega

/-- Specification-side: the three top-ranked index-tagged `(sentence, score)`
pairs — ordered by strictly decreasing score, score ties in original
sentence order. -/
def specTopEnum (scores : List (Str × ℚ)) (k : ℕ) : List (ℕ × (Str × ℚ)) :=
  ((scores.enum).insertionSort rankLt).take k

/-- Specification-side: the original positions of the selected sentences. -/
def specTopIdx (scores : List (Str × ℚ)) (k : ℕ) : List ℕ :=
  (specTopEnum scores k).map (·.1)

/-- Specification-side: the summary the claim describes — the top-scoring
sentences (ties broken by original position), emitted in original document
order, joined by single spaces and stripped. -/
def specSummary (text : Str) (k : ℕ) : Str :=
  let sentences := sentSplit text
  let words := filteredWords text
  let scores := mkScores words sentences
  pyStrip (List.intercalate (str " ")
    (((scores.enum).filter fun p => decide (p.1 ∈ specTopIdx scores k)).map fun p => p.2.1))

/-- C3 (amended): for a text of at least 50 characters with more than 3
sentences and a non-empty word-frequency table, *provided the three
top-ranked `(sentence, score)` pairs are pairwise distinct*, the extractive
summary is exactly the 3 top-scoring sentences in original document order,
ties broken by original position.  (When two identical sentences tie inside
the top 3, the `scores.index` de-duplication collapses them and the output
has fewer sentences — see the counterexample.) -/
theorem C3_top3_document_order (text : Str)
    (h50 : 50 ≤ text.length)
    (hs : 3 < (sentSplit text).length)
    (hw : filteredWords text ≠ [])
    (hd : (specTopEnum (mkScores (filteredWords text) (sentSplit text)) 3).Pairwise
            (fun a b => a.2 ≠ b.2)) :
    extractive text 3 = specSummary text 3 := by
  have htop :
      ((pySortedDesc (mkScores (filteredWords text) (sentSplit text))).take 3).map
          (fun t => pyIndex (mkScores (filteredWords text) (sentSplit text)) t) =
        specTopIdx (mkScores (filteredWords text) (sentSplit text)) 3 := by
    have hkey := pyIndex_eq_idx (mkScores (filteredWords text) (sentSplit text)) hd
    rw [pySortedDesc, ← List.map_take, List.map_map, specTopIdx]
    exact List.map_congr_left fun q hq => hkey q hq
  have hns : ¬ (sentSplit text).length ≤ 3 := by omega
  rw [extractive, if_neg hns, if_neg hw, specSummary]
  simp only [htop]

def cexC3 : Str :=
  str "Common common common word. Common common common word. Other other word. Nothing else remains today."

/-- C3 counterexample: two identical top-scoring sentences collapse under
the `scores.index` set construction, so the summary contains only 2
sentences instead of the 3 top-scoring ones. -/
theorem C3_counterexample :
    50 ≤ cexC3.length ∧ 3 < (sentSplit cexC3).length ∧ filteredWords cexC3 ≠ [] ∧
    extractive cexC3 3 = str "Common common common word. Other other word." ∧
    extractive cexC3 3 ≠ specSummary cexC3 3 := by
  decide

def cexC3w : Str :=
  str "Fed Fed Fed rate cut. Markets rallied on Fed news. Tech stocks also climbed higher. Oil prices barely moved at all."

theorem C3_witness : extractive cexC3w 3 = specSummary cexC3w 3 :=
  C3_top3_document_order cexC3w (by decide) (by decide) (by decide) (by decide)
